import Mathlib

/-!
Verification of the streaming-compression adapter library.

The development embeds, as executable Lean definitions:

* the test-harness type `InputStream` (tests/utils/mod.rs) with its
  `stream`, `bytes` and `len` operations;
* a model of the codec abstraction and of the core encode/decode drivers
  and adapters described by the specification (the adapter state machine:
  phases Encoding/Flushing/Done, scratch buffers, pending propagation,
  flush-to-finish loop, write adapter with close semantics);
* the zlib bufread constructors (src/bufread/zlib.rs).

Theorems at the end settle the frozen claims about round-tripping,
chunking invariance, suspension invariance, phases on empty input,
exactly-one-finish, monotonic progress, idempotent close, constructor
shapes, and the test-stream interleaving.
-/

namespace AsyncCompression

/-- Bytes are modelled as natural numbers; a chunk is a byte list. -/
abbrev Byte := Nat

abbrev Chunk := List Byte

/-! ## The test harness type `InputStream` (tests/utils/mod.rs) -/

/-- Model of `InputStream` (tests/utils/mod.rs line 13): a list of
underlying chunks (`Vec<Vec<u8>>`). -/
structure InputStream where
  chunks : List Chunk

/-- Model of an item of an `io::Result<Bytes>` test stream: `Except.ok`
carries a chunk, `Except.error` an I/O error. -/
abbrev RChunk := Except String Chunk

/-- Model of `futures_test`'s `interleave_pending` combinator: one pending
signal (`none`) is yielded before every item of the underlying stream, and
one more before the end of the stream. -/
def interleavePending {α : Type} (l : List α) : List (Option α) :=
  (l.flatMap fun x => [none, some x]) ++ [none]

namespace InputStream

/-- Model of `InputStream::stream` (tests/utils/mod.rs lines 20-34): flat-map
each underlying chunk `c` to `[empty, c]`, chain one trailing empty chunk,
wrap every chunk in `Ok`, then interleave pending signals. -/
def stream (s : InputStream) : List (Option RChunk) :=
  interleavePending
    (((s.chunks.flatMap fun bytes => [([] : Chunk), bytes]) ++ [[]]).map Except.ok)

/-- Model of `InputStream::bytes` (tests/utils/mod.rs lines 42-44): the
concatenation of the underlying chunks. -/
def bytes (s : InputStream) : Chunk :=
  s.chunks.flatten

/-- Model of `InputStream::len` (tests/utils/mod.rs lines 46-48): the sum of
the underlying chunk lengths. -/
def len (s : InputStream) : Nat :=
  (s.chunks.map List.length).sum

end InputStream

/-- The items actually yielded by a stream-with-pendings: the pending
signals are skipped. -/
def yieldedItems {α : Type} (t : List (Option α)) : List α :=
  t.filterMap id

/-- The chunk carried by a stream item (`Ok` case); errors carry no bytes. -/
def chunkOf (r : RChunk) : Chunk :=
  match r with
  | .ok c => c
  | .error _ => []

theorem yieldedItems_interleavePending {α : Type} (l : List α) :
    yieldedItems (interleavePending l) = l := by
  induction l with
  | nil => rfl
  | cons x xs ih =>
      simp only [interleavePending, yieldedItems] at ih ⊢
      simp [List.flatMap_cons, List.filterMap_append] at ih ⊢
      simpa using ih

theorem flatten_interleaved (l : List Chunk) :
    ((l.flatMap fun c => [([] : Chunk), c]) ++ [[]]).flatten = l.flatten := by
  induction l with
  | nil => rfl
  | cons c cs ih => simp [List.flatMap_cons, List.flatten_append] at ih ⊢ ; simpa using ih

/-! ## Model codec

The backend codec implementations and the adapter state machine are not
part of the two source files; they are modelled from the specification. -/

/-- Status of one codec transform invocation (spec section 4.1). -/
inductive CodecStatus where
  | needMoreInput
  | produced
  | streamEnd
deriving DecidableEq

/-- Modelled from the spec: the outcome record of one `transform`
invocation of the codec abstraction (spec section 4.1); the backend codec
bindings are not part of the source tree. `consumed` counts input bytes
taken, `produced` holds the output bytes emitted. -/
structure CodecOp where
  consumed : Nat
  produced : Chunk
  status : CodecStatus
deriving DecidableEq

/-- A frame of the model compressed format: a nonempty payload preceded by
its length; a zero byte in header position marks the end of the stream. -/
def frame (payload : Chunk) : Chunk :=
  payload.length :: payload

/-- Modelled from the spec: a model backend encoder satisfying the codec
contract of spec section 4.1 (the six native backends are not part of the
source tree). The first component of the result is the codec's new
internal buffer; `t` is a per-codec buffering threshold: input is buffered
until at least `t` bytes are available, then the buffer is emitted as one
frame. With `finish_hint` the codec first flushes its buffer as a frame,
then emits the end marker `[0]` together with `streamEnd`. -/
def encTransform (t : Nat) (buf : Chunk) (input : Chunk) (finish : Bool) :
    Chunk × CodecOp :=
  if finish then
    if (buf ++ input).isEmpty then ([], ⟨input.length, [0], .streamEnd⟩)
    else ([], ⟨input.length, frame (buf ++ input), .produced⟩)
  else
    if (buf ++ input).isEmpty ∨ (buf ++ input).length < t then
      (buf ++ input, ⟨input.length, [], .produced⟩)
    else ([], ⟨input.length, frame (buf ++ input), .produced⟩)

/-- Modelled from the spec: the model backend decoder (spec sections 4.1
and 4.3). It consumes complete frames from the front of the input,
emitting their payloads, until either the end marker is reached
(`streamEnd`; trailing input stays unconsumed) or the input ends in a
partial frame (`needMoreInput`; the partial frame stays unconsumed). The
fuel argument bounds the recursion; the decoder always runs it with the
input length, which suffices. -/
def decGo : Nat → Chunk → CodecOp
  | 0, _ => ⟨0, [], .needMoreInput⟩
  | _ + 1, [] => ⟨0, [], .needMoreInput⟩
  | _ + 1, 0 :: _ => ⟨1, [], .streamEnd⟩
  | f + 1, (l + 1) :: rest =>
      if l + 1 ≤ rest.length then
        let op := decGo f (rest.drop (l + 1))
        ⟨1 + (l + 1) + op.consumed, rest.take (l + 1) ++ op.produced, op.status⟩
      else ⟨0, [], .needMoreInput⟩

/-- One invocation of the model decoder transform on `input`. -/
def decTransform (input : Chunk) : CodecOp :=
  decGo input.length input

/-- Modelled from the spec: one-shot decompression as performed by the
tests' `sync::decompress` helpers: run the decoder transform over the
whole input and keep the produced bytes (trailing data after the end
marker is discarded, spec section 4.3). -/
def syncDecode (bs : Chunk) : Chunk :=
  (decTransform bs).produced

/-! ## Fuel lemmas for the decoder transform -/

theorem decGo_fuel_aux (n : Nat) :
    ∀ f g (bs : Chunk), bs.length ≤ n → bs.length ≤ f → bs.length ≤ g →
      decGo f bs = decGo g bs := by
  induction n with
  | zero =>
      intro f g bs hn _ _
      have hbs : bs = [] := List.length_eq_zero.mp (Nat.le_zero.mp hn)
      subst hbs
      cases f <;> cases g <;> rfl
  | succ n ih =>
      intro f g bs hn hf hg
      match bs with
      | [] => cases f <;> cases g <;> rfl
      | 0 :: r =>
          match f, g with
          | f' + 1, g' + 1 => rfl
      | (l + 1) :: rest =>
          match f, g, hf, hg with
          | f' + 1, g' + 1, hf, hg =>
              simp only [decGo]
              by_cases hc : l + 1 ≤ rest.length
              · simp only [hc, if_true]
                have hlen : (rest.drop (l + 1)).length ≤ n := by
                  have h1 := List.length_drop (l + 1) rest
                  have h2 : rest.length ≤ n := by
                    simp [List.length_cons] at hn; omega
                  omega
                have hf' : (rest.drop (l + 1)).length ≤ f' := by
                  have : rest.length ≤ f' := by
                    simp [List.length_cons] at hf; omega
                  have := List.length_drop (l + 1) rest
                  omega
                have hg' : (rest.drop (l + 1)).length ≤ g' := by
                  have : rest.length ≤ g' := by
                    simp [List.length_cons] at hg; omega
                  have := List.length_drop (l + 1) rest
                  omega
                rw [ih f' g' _ hlen hf' hg']
              · simp [hc]

theorem decGo_fuel {f : Nat} {bs : Chunk} (hf : bs.length ≤ f) :
    decGo f bs = decTransform bs :=
  decGo_fuel_aux bs.length f bs.length bs le_rfl hf le_rfl

/-- Unfolding equation of the decoder transform at a complete frame. -/
theorem decTransform_cons (l : Nat) (rest : Chunk) (hl : 1 ≤ l)
    (hc : l ≤ rest.length) :
    decTransform (l :: rest) =
      ⟨1 + l + (decTransform (rest.drop l)).consumed,
       rest.take l ++ (decTransform (rest.drop l)).produced,
       (decTransform (rest.drop l)).status⟩ := by
  match l, hl with
  | l' + 1, _ =>
      show decGo (rest.length + 1) ((l' + 1) :: rest) = _
      simp only [decGo, hc, if_true]
      rw [decGo_fuel (f := rest.length)]
      have := List.length_drop (l' + 1) rest
      omega

/-- Unfolding equation of the decoder transform at a partial frame. -/
theorem decTransform_cons_short (l : Nat) (rest : Chunk) (hl : 1 ≤ l)
    (hc : rest.length < l) :
    decTransform (l :: rest) = ⟨0, [], .needMoreInput⟩ := by
  match l, hl with
  | l' + 1, _ =>
      show decGo (rest.length + 1) ((l' + 1) :: rest) = _
      simp only [decGo]
      have : ¬ (l' + 1 ≤ rest.length) := by omega
      simp [this]

theorem decTransform_nil : decTransform ([] : Chunk) = ⟨0, [], .needMoreInput⟩ := rfl

theorem decTransform_end (rest : Chunk) :
    decTransform (0 :: rest) = ⟨1, [], .streamEnd⟩ := rfl

/-! ## Frame structure of the model compressed format -/

/-- The byte sequence `fs` is a concatenation of complete frames whose
payloads concatenate to `p`. -/
inductive IsFrames : Chunk → Chunk → Prop
  | nil : IsFrames [] []
  | cons (pl : Chunk) (hp : pl ≠ []) {fs q} (h : IsFrames fs q) :
      IsFrames (frame pl ++ fs) (pl ++ q)

/-- A well-framed stream followed by the end marker and arbitrary trailing
data decodes to exactly the frame payloads, consuming up to the marker. -/
theorem frames_decode {fs p : Chunk} (h : IsFrames fs p) :
    ∀ trailing, decTransform (fs ++ 0 :: trailing) =
      ⟨fs.length + 1, p, .streamEnd⟩ := by
  induction h with
  | nil =>
      intro trailing
      simpa using decTransform_end trailing
  | cons pl hp h ih =>
      intro trailing
      rename_i fs' q
      have hl : 1 ≤ pl.length := by
        cases pl with
        | nil => exact absurd rfl hp
        | cons a l => simp
      have harr : (frame pl ++ fs') ++ 0 :: trailing
          = pl.length :: (pl ++ (fs' ++ 0 :: trailing)) := by
        simp [frame]
      rw [harr]
      have hc : pl.length ≤ (pl ++ (fs' ++ 0 :: trailing)).length := by
        simp
      rw [decTransform_cons pl.length _ hl hc]
      have htake : (pl ++ (fs' ++ 0 :: trailing)).take pl.length = pl :=
        List.take_left pl (fs' ++ 0 :: trailing)
      have hdrop : (pl ++ (fs' ++ 0 :: trailing)).drop pl.length
          = fs' ++ 0 :: trailing :=
        List.drop_left pl (fs' ++ 0 :: trailing)
      rw [htake, hdrop, ih trailing]
      simp [frame]
      omega

/-- A decoder transform that consumed nothing found a partial frame. -/
theorem dec_consumed_zero {bs : Chunk}
    (h : (decTransform bs).consumed = 0) :
    decTransform bs = ⟨0, [], .needMoreInput⟩ := by
  cases bs with
  | nil => rfl
  | cons a rest =>
      cases a with
      | zero => simp [decTransform_end] at h
      | succ l =>
          by_cases hc : l + 1 ≤ rest.length
          · rw [decTransform_cons (l + 1) rest (by omega) hc] at h
            simp at h
          · exact decTransform_cons_short (l + 1) rest (by omega) (by omega)

/-- The decoder transform never reports the `produced` status. -/
theorem dec_status_ne_produced (n : Nat) :
    ∀ bs : Chunk, bs.length ≤ n → (decTransform bs).status ≠ .produced := by
  induction n with
  | zero =>
      intro bs hn
      have : bs = [] := List.length_eq_zero.mp (Nat.le_zero.mp hn)
      subst this
      simp [decTransform_nil]
  | succ n ih =>
      intro bs hn
      cases bs with
      | nil => simp [decTransform_nil]
      | cons a rest =>
          cases a with
          | zero => simp [decTransform_end]
          | succ l =>
              by_cases hc : l + 1 ≤ rest.length
              · rw [decTransform_cons (l + 1) rest (by omega) hc]
                have hlen : (rest.drop (l + 1)).length ≤ n := by
                  have := List.length_drop (l + 1) rest
                  simp [List.length_cons] at hn
                  omega
                exact ih _ hlen
              · rw [decTransform_cons_short (l + 1) rest (by omega) (by omega)]
                simp

/-- Appending more input to a decode that already reached the end marker
changes nothing: the end marker is accepted once, trailing data ignored. -/
theorem dec_append_end_aux (n : Nat) :
    ∀ a b : Chunk, a.length ≤ n → (decTransform a).status = .streamEnd →
      decTransform (a ++ b) =
        ⟨(decTransform a).consumed, (decTransform a).produced, .streamEnd⟩ := by
  induction n with
  | zero =>
      intro a b hn hs
      have : a = [] := List.length_eq_zero.mp (Nat.le_zero.mp hn)
      subst this
      simp [decTransform_nil] at hs
  | succ n ih =>
      intro a b hn hs
      cases a with
      | nil => simp [decTransform_nil] at hs
      | cons x rest =>
          cases x with
          | zero =>
              rw [decTransform_end] at hs ⊢
              show decTransform (0 :: (rest ++ b)) = _
              simp [decTransform_end]
          | succ l =>
              by_cases hc : l + 1 ≤ rest.length
              · rw [decTransform_cons (l + 1) rest (by omega) hc] at hs ⊢
                have hc' : l + 1 ≤ (rest ++ b).length := by
                  simp
                  omega
                have harr : ((l + 1) :: rest) ++ b = (l + 1) :: (rest ++ b) := rfl
                rw [harr, decTransform_cons (l + 1) (rest ++ b) (by omega) hc']
                have htake : (rest ++ b).take (l + 1) = rest.take (l + 1) :=
                  List.take_append_of_le_length hc
                have hdrop : (rest ++ b).drop (l + 1) = rest.drop (l + 1) ++ b :=
                  List.drop_append_of_le_length hc
                have hlen : (rest.drop (l + 1)).length ≤ n := by
                  have := List.length_drop (l + 1) rest
                  simp [List.length_cons] at hn
                  omega
                have := ih (rest.drop (l + 1)) b hlen hs
                rw [htake, hdrop, this]
              · rw [decTransform_cons_short (l + 1) rest (by omega) (by omega)] at hs
                simp at hs

/-- Incremental decoding: a decode stopping at a partial frame continues
seamlessly when more input arrives; no byte is lost, duplicated or
reordered across the suspension. -/
theorem dec_append_more_aux (n : Nat) :
    ∀ a b : Chunk, a.length ≤ n → (decTransform a).status = .needMoreInput →
      decTransform (a ++ b) =
        ⟨(decTransform a).consumed
           + (decTransform (a.drop (decTransform a).consumed ++ b)).consumed,
         (decTransform a).produced
           ++ (decTransform (a.drop (decTransform a).consumed ++ b)).produced,
         (decTransform (a.drop (decTransform a).consumed ++ b)).status⟩ := by
  induction n with
  | zero =>
      intro a b hn _
      have : a = [] := List.length_eq_zero.mp (Nat.le_zero.mp hn)
      subst this
      simp [decTransform_nil]
  | succ n ih =>
      intro a b hn hs
      cases a with
      | nil => simp [decTransform_nil]
      | cons x rest =>
          cases x with
          | zero => simp [decTransform_end] at hs
          | succ l =>
              by_cases hc : l + 1 ≤ rest.length
              · rw [decTransform_cons (l + 1) rest (by omega) hc] at hs ⊢
                have hc' : l + 1 ≤ (rest ++ b).length := by
                  simp
                  omega
                have harr : ((l + 1) :: rest) ++ b = (l + 1) :: (rest ++ b) := rfl
                rw [harr, decTransform_cons (l + 1) (rest ++ b) (by omega) hc']
                have htake : (rest ++ b).take (l + 1) = rest.take (l + 1) :=
                  List.take_append_of_le_length hc
                have hdrop : (rest ++ b).drop (l + 1) = rest.drop (l + 1) ++ b :=
                  List.drop_append_of_le_length hc
                have hlen : (rest.drop (l + 1)).length ≤ n := by
                  have := List.length_drop (l + 1) rest
                  simp [List.length_cons] at hn
                  omega
                have hrec := ih (rest.drop (l + 1)) b hlen hs
                have hresid : ((l + 1) :: rest).drop
                    (1 + (l + 1) + (decTransform (rest.drop (l + 1))).consumed)
                    = (rest.drop (l + 1)).drop
                        (decTransform (rest.drop (l + 1))).consumed := by
                  rw [List.drop_drop]
                  have harith : (1 + (l + 1) + (decTransform (rest.drop (l + 1))).consumed)
                      = ((decTransform (rest.drop (l + 1))).consumed + (l + 1)) + 1 := by
                    omega
                  rw [harith, List.drop_succ_cons]
                  congr 1
                  omega
                rw [htake, hdrop, hrec]
                simp only [hresid]
                simp only [CodecOp.mk.injEq]
                refine ⟨by omega, by simp, trivial⟩
              · rw [decTransform_cons_short (l + 1) rest (by omega) (by omega)] at hs ⊢
                simp

theorem dec_append_end {a : Chunk} (b : Chunk)
    (hs : (decTransform a).status = .streamEnd) :
    decTransform (a ++ b) =
      ⟨(decTransform a).consumed, (decTransform a).produced, .streamEnd⟩ :=
  dec_append_end_aux a.length a b le_rfl hs

theorem dec_append_more {a : Chunk} (b : Chunk)
    (hs : (decTransform a).status = .needMoreInput) :
    decTransform (a ++ b) =
      ⟨(decTransform a).consumed
         + (decTransform (a.drop (decTransform a).consumed ++ b)).consumed,
       (decTransform a).produced
         ++ (decTransform (a.drop (decTransform a).consumed ++ b)).produced,
       (decTransform (a.drop (decTransform a).consumed ++ b)).status⟩ :=
  dec_append_more_aux a.length a b le_rfl hs

/-- A decode that stopped at a partial frame leaves a residue on which the
decoder can make no progress at all. -/
theorem dec_residual {a : Chunk}
    (hs : (decTransform a).status = .needMoreInput) :
    decTransform (a.drop (decTransform a).consumed) = ⟨0, [], .needMoreInput⟩ := by
  have h := dec_append_more (a := a) [] hs
  rw [List.append_nil, List.append_nil] at h
  have hcons : (decTransform (a.drop (decTransform a).consumed)).consumed = 0 := by
    have := congrArg CodecOp.consumed h
    simp at this
    omega
  exact dec_consumed_zero hcons

/-! ## The adapter state machines (modelled from the spec)

The core drivers, the stream adapter, the source-reading adapter and the
sink-writing adapter are not part of the two source files; the machines
below are modelled from spec sections 4.2 to 4.6. -/

/-- An item offered by a chunked upstream: a pending (not ready) signal or
one chunk of bytes. -/
inductive UpItem where
  | pending
  | chunk (c : Chunk)
deriving DecidableEq

/-- An item emitted downstream by a stream adapter. -/
inductive OutItem where
  | pending
  | chunk (c : Chunk)
deriving DecidableEq

/-- Phases of the core encoder driver (spec section 4.2). -/
inductive EncPhase where
  | Encoding
  | Flushing
  | Done
deriving DecidableEq

/-- One record of an adapter run trace: how many input bytes the call
consumed, how many output bytes it produced, whether it advanced the
phase, whether it reported not-ready (with no state mutation), and whether
it consumed a chunk item (possibly empty) from upstream. -/
structure StepRec where
  consumedBytes : Nat
  producedBytes : Nat
  phaseAdvanced : Bool
  reportedPending : Bool
  tookChunk : Bool
deriving DecidableEq

/-- Result of a full encoder adapter run. -/
structure EncRun where
  out : List OutItem
  phases : List EncPhase
  ends : Nat
  steps : List StepRec
deriving DecidableEq

/-- The bytes concatenated over the chunk items of an upstream item list. -/
def chunkBytes (items : List UpItem) : Chunk :=
  (items.map fun i => match i with | .pending => [] | .chunk c => c).flatten

/-- The bytes concatenated over the chunk items emitted downstream. -/
def outBytes (items : List OutItem) : Chunk :=
  (items.map fun i => match i with | .pending => [] | .chunk c => c).flatten

/-- Emission helper of the stream adapter (spec section 4.6): each nonempty
produced batch becomes one output chunk, zero-byte emissions are
suppressed. -/
def emitChunks (l : List Chunk) : List OutItem :=
  l.filterMap fun c => if c.isEmpty then none else some (OutItem.chunk c)

/-- Modelled from the spec: the flushing loop of the core encoder driver
(spec section 4.2): repeatedly invoke the codec transform with empty input
and `finish_hint = true`, collecting the produced batches, until the codec
reports `streamEnd`. Returns the produced batches and the number of
transform invocations that returned `streamEnd`. The fuel bounds the loop;
the driver runs it with `buf.length + 1`, which suffices. -/
def encFlushGo (t : Nat) : Nat → Chunk → List Chunk × Nat
  | 0, _ => ([], 0)
  | fuel + 1, buf =>
      let r := encTransform t buf [] true
      match r.2.status with
      | .streamEnd => ([r.2.produced], 1)
      | _ =>
          let rec_ := encFlushGo t fuel r.1
          (r.2.produced :: rec_.1, rec_.2)

/-- The flushing phase of the core encoder driver, run to completion. -/
def encFlush (t : Nat) (buf : Chunk) : List Chunk × Nat :=
  encFlushGo t (buf.length + 1) buf

/-- Modelled from the spec: the stream-shape encoder adapter (spec sections
4.2 and 4.6) driving the model codec with buffer `buf` over the remaining
upstream items. Pending signals from upstream are propagated downstream
with no state mutation; each chunk is fed to the codec transform; at
upstream end of input the driver enters Flushing, drives the finish loop,
and ends in Done. The run records emitted items, the phases entered after
the current one, the number of `streamEnd` results, and the progress
trace. -/
def encodeGo (t : Nat) (buf : Chunk) : List UpItem → EncRun
  | [] =>
      let fl := encFlush t buf
      { out := emitChunks fl.1
        phases := [.Flushing, .Done]
        ends := fl.2
        steps := ⟨0, 0, true, false, false⟩
          :: ((fl.1.map fun c => ⟨0, c.length, false, false, false⟩)
              ++ [⟨0, 0, true, false, false⟩]) }
  | .pending :: rest =>
      let r := encodeGo t buf rest
      { out := .pending :: r.out
        phases := r.phases
        ends := r.ends
        steps := ⟨0, 0, false, true, false⟩ :: r.steps }
  | .chunk c :: rest =>
      let tr := encTransform t buf c false
      let r := encodeGo t tr.1 rest
      { out := (if tr.2.produced.isEmpty then [] else [OutItem.chunk tr.2.produced]) ++ r.out
        phases := r.phases
        ends := (if tr.2.status = .streamEnd then 1 else 0) + r.ends
        steps := ⟨tr.2.consumed, tr.2.produced.length, false, false, true⟩ :: r.steps }

/-- Run the stream encoder adapter from its initial state: phase Encoding,
empty codec buffer. -/
def encodeRun (t : Nat) (items : List UpItem) : EncRun :=
  let r := encodeGo t [] items
  { r with phases := EncPhase.Encoding :: r.phases }

/-- Compressed bytes produced by the stream encoder on the given items. -/
def encBytes (t : Nat) (items : List UpItem) : Chunk :=
  outBytes (encodeRun t items).out

/-- Result of a full decoder adapter run. -/
structure DecRun where
  out : List OutItem
  ends : Nat
  steps : List StepRec
deriving DecidableEq

/-- Whether a codec status is the end-of-stream report. -/
def statusIsEnd (s : CodecStatus) : Bool :=
  match s with
  | .streamEnd => true
  | _ => false

/-- Modelled from the spec: the stream-shape decoder adapter (spec sections
4.3 and 4.6): it keeps a pending-input buffer, feeds the buffered bytes
plus each fresh chunk to the decoder transform, removes the consumed
bytes, emits each nonempty produced batch, and becomes terminal at the
first `streamEnd`, after which further input is discarded silently and
trailing bytes are dropped. At upstream end of input a decoder that has
not seen the end marker becomes terminal with an UnexpectedEof error
(recorded as a phase advance). -/
def decodeGo (buf : Chunk) (done : Bool) : List UpItem → DecRun
  | [] =>
      if done then { out := [], ends := 0, steps := [] }
      else { out := [], ends := 0, steps := [⟨0, 0, true, false, false⟩] }
  | .pending :: rest =>
      let r := decodeGo buf done rest
      { out := .pending :: r.out
        ends := r.ends
        steps := ⟨0, 0, false, true, false⟩ :: r.steps }
  | .chunk c :: rest =>
      if done then
        let r := decodeGo buf done rest
        { out := r.out
          ends := r.ends
          steps := ⟨c.length, 0, false, false, true⟩ :: r.steps }
      else
        let op := decTransform (buf ++ c)
        let r := decodeGo (if statusIsEnd op.status then [] else (buf ++ c).drop op.consumed)
                   (done || statusIsEnd op.status) rest
        { out := (if op.produced.isEmpty then [] else [OutItem.chunk op.produced]) ++ r.out
          ends := (if statusIsEnd op.status then 1 else 0) + r.ends
          steps := ⟨c.length, op.produced.length, statusIsEnd op.status, false, true⟩ :: r.steps }

/-- Run the stream decoder adapter from its initial state. -/
def decodeRun (items : List UpItem) : DecRun :=
  decodeGo [] false items

/-- Decompressed bytes produced by the stream decoder on the given items. -/
def decBytes (items : List UpItem) : Chunk :=
  outBytes (decodeRun items).out

/-- Remove the injected noise from an upstream item list: pending signals
and empty chunks. -/
def strip (items : List UpItem) : List UpItem :=
  items.filter fun i => match i with | .pending => false | .chunk c => !c.isEmpty

/-- Feed the items emitted by one stream adapter to another. -/
def outToUp (l : List OutItem) : List UpItem :=
  l.map fun i => match i with | .pending => .pending | .chunk c => .chunk c

/-! ## Encoder driver lemmas -/

theorem encTransform_false_keep {t : Nat} {buf c : Chunk}
    (h : (buf ++ c).isEmpty ∨ (buf ++ c).length < t) :
    encTransform t buf c false = (buf ++ c, ⟨c.length, [], .produced⟩) := by
  simp only [encTransform, Bool.false_eq_true, if_false]
  rw [if_pos h]

theorem encTransform_false_emit {t : Nat} {buf c : Chunk}
    (h : ¬ ((buf ++ c).isEmpty ∨ (buf ++ c).length < t)) :
    encTransform t buf c false = ([], ⟨c.length, frame (buf ++ c), .produced⟩) := by
  simp only [encTransform, Bool.false_eq_true, if_false]
  rw [if_neg h]

theorem encTransform_false_status (t : Nat) (buf c : Chunk) :
    (encTransform t buf c false).2.status = .produced := by
  by_cases h : (buf ++ c).isEmpty ∨ (buf ++ c).length < t
  · rw [encTransform_false_keep h]
  · rw [encTransform_false_emit h]

/-- The flushing loop emits the buffered frame (when nonempty) and the end
marker, and reports `streamEnd` exactly once. -/
theorem encFlush_eq (t : Nat) (buf : Chunk) :
    encFlush t buf = ((if buf.isEmpty then [[0]] else [frame buf, [0]]), 1) := by
  cases buf with
  | nil => rfl
  | cons a l =>
      show encFlushGo t (l.length + 1 + 1) (a :: l) = _
      have h1 : encTransform t (a :: l) [] true
          = ([], ⟨0, frame (a :: l), .produced⟩) := by
        simp [encTransform, frame]
      have h2 : encTransform t [] [] true = ([], ⟨0, [0], .streamEnd⟩) := by
        simp [encTransform]
      simp only [encFlushGo, h1]
      show (frame (a :: l) :: (encFlushGo t (l.length + 1) []).1,
            (encFlushGo t (l.length + 1) []).2) = _
      simp only [encFlushGo, h2]
      simp

theorem outBytes_nil : outBytes [] = [] := rfl

theorem outBytes_cons_pending (l : List OutItem) :
    outBytes (.pending :: l) = outBytes l := by
  simp [outBytes]

theorem outBytes_cons_chunk (c : Chunk) (l : List OutItem) :
    outBytes (.chunk c :: l) = c ++ outBytes l := by
  simp [outBytes]

theorem outBytes_emit (c : Chunk) (l : List OutItem) :
    outBytes ((if c.isEmpty then [] else [OutItem.chunk c]) ++ l)
      = c ++ outBytes l := by
  by_cases h : c.isEmpty
  · have : c = [] := by simpa [List.isEmpty_iff] using h
    subst this
    simp [outBytes]
  · simp [h, outBytes]

theorem outBytes_emitChunks (l : List Chunk) :
    outBytes (emitChunks l) = l.flatten := by
  induction l with
  | nil => rfl
  | cons c cs ih =>
      by_cases h : c.isEmpty
      · have hc : c = [] := by simpa [List.isEmpty_iff] using h
        subst hc
        simpa [emitChunks, outBytes] using ih
      · have hc : c ≠ [] := by simpa [List.isEmpty_iff] using h
        have hstep : emitChunks (c :: cs) = OutItem.chunk c :: emitChunks cs := by
          simp [emitChunks, List.filterMap_cons, hc]
        rw [hstep, outBytes_cons_chunk, ih]
        simp

theorem chunkBytes_nil : chunkBytes [] = [] := rfl

theorem chunkBytes_cons_pending (l : List UpItem) :
    chunkBytes (.pending :: l) = chunkBytes l := by
  simp [chunkBytes]

theorem chunkBytes_cons_chunk (c : Chunk) (l : List UpItem) :
    chunkBytes (.chunk c :: l) = c ++ chunkBytes l := by
  simp [chunkBytes]

/-- The stream encoder emits a well-framed stream followed by the end
marker; the frame payloads are exactly the input bytes, in order. -/
theorem enc_frames (t : Nat) :
    ∀ (items : List UpItem) (buf : Chunk),
      ∃ fs, outBytes (encodeGo t buf items).out = fs ++ [0]
        ∧ IsFrames fs (buf ++ chunkBytes items) := by
  intro items
  induction items with
  | nil =>
      intro buf
      cases hb : buf with
      | nil =>
          refine ⟨[], ?_, ?_⟩
          · simp [encodeGo, encFlush_eq, outBytes_emitChunks]
          · simpa [chunkBytes_nil] using IsFrames.nil
      | cons a l =>
          refine ⟨frame (a :: l), ?_, ?_⟩
          · simp [encodeGo, encFlush_eq, outBytes_emitChunks]
          · have h := IsFrames.cons (a :: l) (by simp) IsFrames.nil
            simpa [chunkBytes_nil] using h
  | cons i rest ih =>
      intro buf
      cases i with
      | pending =>
          obtain ⟨fs, h1, h2⟩ := ih buf
          exact ⟨fs, by simpa [encodeGo, outBytes_cons_pending] using h1,
            by simpa [chunkBytes_cons_pending] using h2⟩
      | chunk c =>
          by_cases h : (buf ++ c).isEmpty ∨ (buf ++ c).length < t
          · obtain ⟨fs, h1, h2⟩ := ih (buf ++ c)
            refine ⟨fs, ?_, ?_⟩
            · simp only [encodeGo, encTransform_false_keep h]
              simpa [outBytes_emit] using h1
            · simpa [chunkBytes_cons_chunk, List.append_assoc] using h2
          · obtain ⟨fs, h1, h2⟩ := ih []
            refine ⟨frame (buf ++ c) ++ fs, ?_, ?_⟩
            · simp only [encodeGo, encTransform_false_emit h]
              rw [outBytes_emit, h1]
              simp
            · have hne : buf ++ c ≠ [] := by
                intro hcontra
                simp [hcontra] at h
              have := IsFrames.cons (buf ++ c) hne (by simpa using h2)
              simpa [chunkBytes_cons_chunk, List.append_assoc] using this

/-- Round-trip at the byte level: one-shot decode of the stream encoder's
output recovers the input bytes exactly. -/
theorem syncDecode_encBytes (t : Nat) (items : List UpItem) :
    syncDecode (encBytes t items) = chunkBytes items := by
  obtain ⟨fs, h1, h2⟩ := enc_frames t items []
  have hb : encBytes t items = fs ++ 0 :: [] := by
    simpa [encBytes, encodeRun] using h1
  have := frames_decode h2 []
  simp only [syncDecode, hb, this]
  simp

/-- The stream encoder's output always ends in the end marker and decodes
with `streamEnd` status. -/
theorem dec_enc_status (t : Nat) (items : List UpItem) :
    (decTransform (encBytes t items)).status = .streamEnd := by
  obtain ⟨fs, h1, h2⟩ := enc_frames t items []
  have hb : encBytes t items = fs ++ 0 :: [] := by
    simpa [encBytes, encodeRun] using h1
  rw [hb, frames_decode h2 []]

/-- Whatever the upstream offers, the encoder driver passes through
Flushing and ends in Done. -/
theorem encodeGo_phases (t : Nat) :
    ∀ (items : List UpItem) (buf : Chunk),
      (encodeGo t buf items).phases = [.Flushing, .Done] := by
  intro items
  induction items with
  | nil => intro buf; rfl
  | cons i rest ih =>
      intro buf
      cases i with
      | pending => simpa [encodeGo] using ih buf
      | chunk c => simpa [encodeGo] using ih (encTransform t buf c false).1

/-- Over a whole encoder run the codec reports `streamEnd` exactly once:
the finish path runs once per adapter lifetime. -/
theorem encodeGo_ends (t : Nat) :
    ∀ (items : List UpItem) (buf : Chunk), (encodeGo t buf items).ends = 1 := by
  intro items
  induction items with
  | nil =>
      intro buf
      have h := encFlush_eq t buf
      simp [encodeGo, h]
  | cons i rest ih =>
      intro i_1
      cases i with
      | pending => simpa [encodeGo] using ih i_1
      | chunk c =>
          have hs := encTransform_false_status t i_1 c
          simp [encodeGo, hs, ih]

/-- Injected pending signals and empty chunks do not change the encoder's
output bytes, provided the codec buffer respects its invariant (empty or
below the threshold), which the driver maintains. -/
theorem encodeGo_strip (t : Nat) :
    ∀ (items : List UpItem) (buf : Chunk), (buf = [] ∨ buf.length < t) →
      outBytes (encodeGo t buf items).out
        = outBytes (encodeGo t buf (strip items)).out := by
  intro items
  induction items with
  | nil => intro buf _; rfl
  | cons i rest ih =>
      intro buf hbuf
      cases i with
      | pending =>
          have hstrip : strip (UpItem.pending :: rest) = strip rest := by
            simp [strip]
          rw [hstrip]
          simpa [encodeGo, outBytes_cons_pending] using ih buf hbuf
      | chunk c =>
          cases hc : c with
          | nil =>
              have hstrip : strip (UpItem.chunk [] :: rest) = strip rest := by
                simp [strip]
              rw [hstrip]
              have hkeep : (buf ++ ([] : Chunk)).isEmpty ∨ (buf ++ ([] : Chunk)).length < t := by
                rcases hbuf with h | h
                · left; simp [h]
                · right; simpa using h
              simp only [encodeGo, encTransform_false_keep hkeep]
              have hb2 : buf ++ ([] : Chunk) = buf := by simp
              rw [outBytes_emit]
              simp only [hb2]
              simpa using ih buf hbuf
          | cons a l =>
              have hstrip : strip (UpItem.chunk (a :: l) :: rest)
                  = UpItem.chunk (a :: l) :: strip rest := by
                simp [strip]
              rw [hstrip]
              by_cases h : (buf ++ (a :: l)).isEmpty ∨ (buf ++ (a :: l)).length < t
              · simp only [encodeGo, encTransform_false_keep h]
                rw [outBytes_emit, outBytes_emit]
                have hinv : buf ++ (a :: l) = [] ∨ (buf ++ (a :: l)).length < t := by
                  rcases h with h | h
                  · left; exact List.isEmpty_iff.mp h
                  · right; exact h
                rw [ih (buf ++ (a :: l)) hinv]
              · simp only [encodeGo, encTransform_false_emit h]
                rw [outBytes_emit, outBytes_emit]
                rw [ih [] (Or.inl rfl)]

/-- On empty input (any number of empty chunks, no payload bytes) the
encoder produces exactly the minimal valid stream: the end marker alone. -/
theorem encodeGo_empty_input (t : Nat) :
    ∀ (items : List UpItem), (∀ x ∈ items, x = UpItem.chunk []) →
      outBytes (encodeGo t [] items).out = [0] := by
  intro items
  induction items with
  | nil =>
      intro _
      simp [encodeGo, encFlush_eq, outBytes_emitChunks]
  | cons i rest ih =>
      intro h
      have hi : i = UpItem.chunk [] := h i (by simp)
      subst hi
      have hkeep : (([] : Chunk) ++ ([] : Chunk)).isEmpty
          ∨ (([] : Chunk) ++ ([] : Chunk)).length < t := by
        left; rfl
      simp only [encodeGo, encTransform_false_keep hkeep]
      rw [outBytes_emit]
      have := ih (fun x hx => h x (by simp [hx]))
      simpa using this

/-! ## Decoder driver lemmas -/

/-- A terminal decoder discards all further input: no output, no further
end-of-stream acceptance. -/
theorem decodeGo_done :
    ∀ (items : List UpItem) (buf : Chunk),
      outBytes (decodeGo buf true items).out = []
        ∧ (decodeGo buf true items).ends = 0 := by
  intro items
  induction items with
  | nil => intro buf; simp [decodeGo, outBytes_nil]
  | cons i rest ih =>
      intro buf
      cases i with
      | pending =>
          have := ih buf
          simpa [decodeGo, outBytes_cons_pending] using this
      | chunk c =>
          have := ih buf
          simpa [decodeGo] using this

/-- The stream decoder is equivalent to a one-shot decode of the
concatenated bytes it has been fed: chunk boundaries, pending signals and
suspensions do not affect the decoded byte sequence. -/
theorem decodeGo_correct :
    ∀ (items : List UpItem) (buf : Chunk), (decTransform buf).consumed = 0 →
      outBytes (decodeGo buf false items).out
        = (decTransform (buf ++ chunkBytes items)).produced := by
  intro items
  induction items with
  | nil =>
      intro buf hbuf
      have h := dec_consumed_zero hbuf
      simp [decodeGo, outBytes_nil, chunkBytes_nil, h]
  | cons i rest ih =>
      intro buf hbuf
      cases i with
      | pending =>
          simpa [decodeGo, outBytes_cons_pending, chunkBytes_cons_pending]
            using ih buf hbuf
      | chunk c =>
          have hstat := dec_status_ne_produced (buf ++ c).length (buf ++ c) le_rfl
          have harr : buf ++ chunkBytes (UpItem.chunk c :: rest)
              = (buf ++ c) ++ chunkBytes rest := by
            rw [chunkBytes_cons_chunk, List.append_assoc]
          rcases hcase : (decTransform (buf ++ c)).status with _ | _ | _
          · -- needMoreInput: the decode continues over the residue
            have hres := dec_residual hcase
            have hstuck : (decTransform ((buf ++ c).drop
                (decTransform (buf ++ c)).consumed)).consumed = 0 := by
              rw [hres]
            have hih := ih _ hstuck
            have happ := dec_append_more (a := buf ++ c) (chunkBytes rest) hcase
            simp only [decodeGo, hcase, statusIsEnd, Bool.false_eq_true, if_false,
              Bool.or_false]
            rw [outBytes_emit, hih, harr, happ]
          · exact absurd hcase hstat
          · -- streamEnd: the decoder becomes terminal, the rest is ignored
            have hdone := decodeGo_done rest []
            have happ := dec_append_end (a := buf ++ c) (chunkBytes rest) hcase
            simp only [decodeGo, hcase, statusIsEnd, Bool.false_eq_true, if_false,
              Bool.or_true, if_true]
            rw [outBytes_emit, hdone.1, harr, happ]
            simp

/-- The stream decoder accepts the end-of-stream marker exactly as often as
a one-shot decode of the concatenated bytes reports it, namely once on a
well-formed stream and never otherwise. -/
theorem decodeGo_ends :
    ∀ (items : List UpItem) (buf : Chunk), (decTransform buf).consumed = 0 →
      (decodeGo buf false items).ends
        = (if (decTransform (buf ++ chunkBytes items)).status = .streamEnd
           then 1 else 0) := by
  intro items
  induction items with
  | nil =>
      intro buf hbuf
      have h := dec_consumed_zero hbuf
      simp [decodeGo, chunkBytes_nil, h]
  | cons i rest ih =>
      intro buf hbuf
      cases i with
      | pending =>
          simpa [decodeGo, chunkBytes_cons_pending] using ih buf hbuf
      | chunk c =>
          have hstat := dec_status_ne_produced (buf ++ c).length (buf ++ c) le_rfl
          have harr : buf ++ chunkBytes (UpItem.chunk c :: rest)
              = (buf ++ c) ++ chunkBytes rest := by
            rw [chunkBytes_cons_chunk, List.append_assoc]
          rcases hcase : (decTransform (buf ++ c)).status with _ | _ | _
          · have hres := dec_residual hcase
            have hstuck : (decTransform ((buf ++ c).drop
                (decTransform (buf ++ c)).consumed)).consumed = 0 := by
              rw [hres]
            have hih := ih _ hstuck
            have happ := dec_append_more (a := buf ++ c) (chunkBytes rest) hcase
            simp only [decodeGo, hcase, statusIsEnd, Bool.false_eq_true, if_false,
              Bool.or_false]
            rw [hih, harr, happ]
            simp
          · exact absurd hcase hstat
          · have hdone := decodeGo_done rest []
            have happ := dec_append_end (a := buf ++ c) (chunkBytes rest) hcase
            simp only [decodeGo, hcase, statusIsEnd, Bool.false_eq_true, if_false,
              Bool.or_true, if_true]
            rw [hdone.2, harr, happ]
            simp

/-- Injected pending signals and empty chunks do not change the decoder's
output bytes either. -/
theorem decodeGo_strip :
    ∀ (items : List UpItem) (buf : Chunk) (done : Bool),
      (done = true ∨ (decTransform buf).consumed = 0) →
      outBytes (decodeGo buf done items).out
        = outBytes (decodeGo buf done (strip items)).out := by
  intro items
  induction items with
  | nil => intro buf done _; rfl
  | cons i rest ih =>
      intro buf done hinv
      cases i with
      | pending =>
          have hstrip : strip (UpItem.pending :: rest) = strip rest := by
            simp [strip]
          rw [hstrip]
          cases done with
          | true => simpa [decodeGo, outBytes_cons_pending] using ih buf true hinv
          | false => simpa [decodeGo, outBytes_cons_pending] using ih buf false hinv
      | chunk c =>
          cases done with
          | true =>
              cases hc : c with
              | nil =>
                  have hstrip : strip (UpItem.chunk [] :: rest) = strip rest := by
                    simp [strip]
                  rw [hstrip]
                  simpa [decodeGo] using ih buf true hinv
              | cons a l =>
                  have hstrip : strip (UpItem.chunk (a :: l) :: rest)
                      = UpItem.chunk (a :: l) :: strip rest := by
                    simp [strip]
                  rw [hstrip]
                  simpa [decodeGo] using ih buf true hinv
          | false =>
              have hstuck : (decTransform buf).consumed = 0 := by
                rcases hinv with h | h
                · exact absurd h (by simp)
                · exact h
              cases hc : c with
              | nil =>
                  have hstrip : strip (UpItem.chunk [] :: rest) = strip rest := by
                    simp [strip]
                  rw [hstrip]
                  have hb : buf ++ ([] : Chunk) = buf := by simp
                  have hop : decTransform (buf ++ ([] : Chunk)) = ⟨0, [], .needMoreInput⟩ := by
                    rw [hb]; exact dec_consumed_zero hstuck
                  simp only [decodeGo, hop, statusIsEnd, Bool.false_eq_true, if_false,
                    Bool.or_false]
                  rw [outBytes_emit]
                  simp only [List.drop_zero, hb]
                  simpa using ih buf false (Or.inr hstuck)
              | cons a l =>
                  have hstrip : strip (UpItem.chunk (a :: l) :: rest)
                      = UpItem.chunk (a :: l) :: strip rest := by
                    simp [strip]
                  rw [hstrip]
                  have hstat := dec_status_ne_produced (buf ++ (a :: l)).length _ le_rfl
                  rcases hcase : (decTransform (buf ++ (a :: l))).status with _ | _ | _
                  · have hres := dec_residual hcase
                    have hstuck2 : (decTransform ((buf ++ (a :: l)).drop
                        (decTransform (buf ++ (a :: l))).consumed)).consumed = 0 := by
                      rw [hres]
                    simp only [decodeGo, hcase, statusIsEnd, Bool.false_eq_true, if_false,
                      Bool.or_false]
                    rw [outBytes_emit, outBytes_emit]
                    rw [ih _ false (Or.inr hstuck2)]
                  · exact absurd hcase hstat
                  · simp only [decodeGo, hcase, statusIsEnd, Bool.false_eq_true, if_false,
                      Bool.or_true, if_true]
                    rw [outBytes_emit, outBytes_emit]
                    rw [ih [] true (Or.inl rfl)]

/-! ## The source-reading adapter shape -/

/-- Modelled from the spec: the source-reading encoder adapter (spec
section 4.4) driven to end of stream by a caller that consumes every
published scratch byte: on a pending report the caller retries; each
produced batch is published in the scratch and consumed in full. The
result is the byte sequence delivered to the caller, in order. -/
def readGo (t : Nat) (buf : Chunk) : List UpItem → Chunk
  | [] => (encFlush t buf).1.flatten
  | .pending :: rest => readGo t buf rest
  | .chunk c :: rest =>
      (encTransform t buf c false).2.produced
        ++ readGo t (encTransform t buf c false).1 rest

/-- Modelled from the spec: the source-reading decoder adapter (spec
sections 4.3 and 4.4), returning the byte sequence delivered to the
caller. -/
def readDecGo (buf : Chunk) (done : Bool) : List UpItem → Chunk
  | [] => []
  | .pending :: rest => readDecGo buf done rest
  | .chunk c :: rest =>
      if done then readDecGo buf done rest
      else
        (decTransform (buf ++ c)).produced
          ++ readDecGo
               (if statusIsEnd (decTransform (buf ++ c)).status then []
                else (buf ++ c).drop (decTransform (buf ++ c)).consumed)
               (done || statusIsEnd (decTransform (buf ++ c)).status) rest

/-- The read and stream shapes deliver the same encoded bytes: both are
views of the same core driver. -/
theorem readGo_eq_encodeGo (t : Nat) :
    ∀ (items : List UpItem) (buf : Chunk),
      readGo t buf items = outBytes (encodeGo t buf items).out := by
  intro items
  induction items with
  | nil =>
      intro buf
      simp [readGo, encodeGo, outBytes_emitChunks]
  | cons i rest ih =>
      intro buf
      cases i with
      | pending => simpa [readGo, encodeGo, outBytes_cons_pending] using ih buf
      | chunk c =>
          simp only [readGo, encodeGo, outBytes_emit]
          rw [ih]

/-- The read and stream shapes deliver the same decoded bytes as well. -/
theorem readDecGo_eq_decodeGo :
    ∀ (items : List UpItem) (buf : Chunk) (done : Bool),
      readDecGo buf done items = outBytes (decodeGo buf done items).out := by
  intro items
  induction items with
  | nil =>
      intro buf done
      cases done <;> simp [readDecGo, decodeGo, outBytes_nil]
  | cons i rest ih =>
      intro buf done
      cases i with
      | pending =>
          cases done <;>
            simpa [readDecGo, decodeGo, outBytes_cons_pending] using ih buf _
      | chunk c =>
          cases done with
          | true => simpa [readDecGo, decodeGo] using ih buf true
          | false =>
              simp only [readDecGo, decodeGo, Bool.false_eq_true, if_false,
                outBytes_emit]
              rw [ih]

/-! ## The sink-writing adapter shape -/

/-- Modelled from the spec: state of the sink-writing adapter (spec
section 4.5) together with its downstream test sink (the harness wraps the
output vector in `limited_write(limit).interleave_pending_write()`):
`closed` flag, codec buffer, scratch of produced but unforwarded bytes,
the bytes received downstream, the pending-alternation flag of the
downstream wrapper, and whether the downstream has been closed. -/
structure WState where
  closed : Bool
  buf : Chunk
  scratch : Chunk
  down : Chunk
  downPend : Bool
  downClosed : Bool
deriving DecidableEq

/-- Misuse error of the sink-writing adapter. -/
inductive WError where
  | writeAfterClose
deriving DecidableEq

/-- Modelled from the spec: drain a scratch buffer to the downstream sink
(spec section 4.5), driven to completion as the harness `block_on` drives
it. The downstream accepts at most `limit` bytes per ready poll and
alternates pending polls; the fuel bounds the loop, and the driver runs it
with `2 * scratch.length + 2`, which suffices whenever `limit ≥ 1`. On
fuel exhaustion the undelivered scratch bytes are lost, which never
happens for the fuel the driver supplies. -/
def drainGo (limit : Nat) : Nat → Chunk → Chunk → Bool → Chunk × Bool
  | 0, _, down, flag => (down, flag)
  | fuel + 1, scratch, down, flag =>
      if scratch.isEmpty then (down, flag)
      else if flag then drainGo limit fuel scratch down false
      else drainGo limit fuel (scratch.drop limit) (down ++ scratch.take limit) true

/-- Drain a scratch buffer to the downstream sink, to completion. -/
def drain (limit : Nat) (scratch down : Chunk) (flag : Bool) : Chunk × Bool :=
  drainGo limit (2 * scratch.length + 2) scratch down flag

/-- With any positive per-poll limit, draining forwards the whole scratch
downstream, in order, whatever the pending alternation did. -/
theorem drainGo_spec (limit : Nat) (hl : 1 ≤ limit) :
    ∀ (fuel : Nat) (scratch down : Chunk) (flag : Bool),
      2 * scratch.length + 1 + (if flag then 1 else 0) ≤ fuel →
      (drainGo limit fuel scratch down flag).1 = down ++ scratch := by
  intro fuel
  induction fuel with
  | zero =>
      intro scratch down flag h
      by_cases hf : flag <;> simp [hf] at h
  | succ fuel ih =>
      intro scratch down flag h
      by_cases hs : scratch.isEmpty
      · have : scratch = [] := List.isEmpty_iff.mp hs
        subst this
        simp [drainGo]
      · have hlen : 1 ≤ scratch.length := by
          cases scratch with
          | nil => simp at hs
          | cons a l => simp
        cases flag with
        | true =>
            simp only [drainGo, hs, Bool.false_eq_true, if_false, if_true]
            apply ih
            simp only [eq_self_iff_true, if_true] at h
            simp only [Bool.false_eq_true, if_false]
            omega
        | false =>
            simp only [drainGo, hs, Bool.false_eq_true, if_false]
            rw [ih (scratch.drop limit) (down ++ scratch.take limit) true ?hfuel]
            · rw [List.append_assoc, List.take_append_drop]
            case hfuel =>
              simp only [eq_self_iff_true, if_true]
              have hd := List.length_drop limit scratch
              simp only [Bool.false_eq_true, if_false] at h
              omega

/-- Drain delivers the whole scratch for the fuel the driver supplies. -/
theorem drain_spec {limit : Nat} (hl : 1 ≤ limit)
    (scratch down : Chunk) (flag : Bool) :
    (drain limit scratch down flag).1 = down ++ scratch := by
  apply drainGo_spec limit hl
  cases flag with
  | true => simp only [eq_self_iff_true, if_true]; omega
  | false => simp only [Bool.false_eq_true, if_false]; omega

/-- Modelled from the spec: the write operation of the sink-writing
adapter (spec section 4.5), driven to completion by the harness: after a
completed close it fails with `WriteAfterClose`; otherwise the scratch is
drained first, the caller bytes are fed to the codec, and the produced
bytes are drained in turn. -/
def wWrite (t limit : Nat) (s : WState) (bs : Chunk) : Except WError WState :=
  if s.closed then .error .writeAfterClose
  else
    let d1 := drain limit s.scratch s.down s.downPend
    let tr := encTransform t s.buf bs false
    let d2 := drain limit tr.2.produced d1.1 d1.2
    .ok { s with buf := tr.1, scratch := [], down := d2.1, downPend := d2.2 }

/-- Modelled from the spec: the flush operation of the sink-writing
adapter (spec section 4.5): after a completed close it fails with
`WriteAfterClose`; otherwise the scratch is drained, the codec is driven
with empty input and no finish hint until it produces nothing (one
invocation decides for the model codec), the produced bytes are drained,
and the downstream is flushed. -/
def wFlush (t limit : Nat) (s : WState) : Except WError WState :=
  if s.closed then .error .writeAfterClose
  else
    let d1 := drain limit s.scratch s.down s.downPend
    let tr := encTransform t s.buf [] false
    let d2 := drain limit tr.2.produced d1.1 d1.2
    .ok { s with buf := tr.1, scratch := [], down := d2.1, downPend := d2.2 }

/-- Modelled from the spec: the close operation of the sink-writing
adapter (spec section 4.5): idempotent — a second close is a no-op;
otherwise the scratch is drained, the finish loop is driven to Done with
every produced batch forwarded, and the downstream is closed. -/
def wClose (t limit : Nat) (s : WState) : WState :=
  if s.closed then s
  else
    let d1 := drain limit s.scratch s.down s.downPend
    let fl := encFlush t s.buf
    let d2 := drain limit fl.1.flatten d1.1 d1.2
    { closed := true, buf := [], scratch := [], down := d2.1,
      downPend := d2.2, downClosed := true }

/-- Modelled from the test harness `async_write_to_vec`
(tests/utils/mod.rs lines 100-120): write each chunk in full, flush after
each chunk, and close at the end; the downstream vector holds the
compressed output. -/
def wSessionGo (t limit : Nat) (s : WState) : List Chunk → WState
  | [] => wClose t limit s
  | c :: rest =>
      match wWrite t limit s c with
      | .error _ => s
      | .ok s1 =>
          match wFlush t limit s1 with
          | .error _ => s1
          | .ok s2 => wSessionGo t limit s2 rest

/-- A full write session from a fresh adapter, with the downstream
pending-alternation flag starting at `flag0`. -/
def wSession (t limit : Nat) (flag0 : Bool) (chunks : List Chunk) : WState :=
  wSessionGo t limit ⟨false, [], [], [], flag0, false⟩ chunks

/-- The write session forwards downstream exactly the bytes the core
encoder emits on the same chunk sequence: the write shape is another view
of the same core driver, and neither the per-poll limit nor the pending
alternation changes the bytes. -/
theorem wSessionGo_down (t limit : Nat) (hl : 1 ≤ limit) :
    ∀ (chunks : List Chunk) (buf down : Chunk) (flag : Bool),
      (wSessionGo t limit ⟨false, buf, [], down, flag, false⟩ chunks).down
        = down ++ outBytes (encodeGo t buf (chunks.map UpItem.chunk)).out := by
  intro chunks
  induction chunks with
  | nil =>
      intro buf down flag
      have hfl := encFlush_eq t buf
      simp only [wSessionGo, wClose, Bool.false_eq_true, if_false]
      rw [drain_spec hl, drain_spec hl]
      simp only [List.map_nil, encodeGo, outBytes_emitChunks]
      simp
  | cons c rest ih =>
      intro buf down flag
      by_cases h : (buf ++ c).isEmpty ∨ (buf ++ c).length < t
      · have htr := encTransform_false_keep (t := t) h
        have hkeep2 : ((buf ++ c) ++ ([] : Chunk)).isEmpty
            ∨ ((buf ++ c) ++ ([] : Chunk)).length < t := by
          simpa using h
        have htr2 := encTransform_false_keep (t := t) hkeep2
        simp only [wSessionGo, wWrite, wFlush, Bool.false_eq_true, if_false, htr,
          htr2, drain_spec hl, List.append_nil]
        rw [ih (buf ++ c) down _]
        simp only [List.map_cons, encodeGo, htr, outBytes_emit, List.append_nil]
        simp
      · have htr := encTransform_false_emit (t := t) h
        have hkeep2 : (([] : Chunk) ++ ([] : Chunk)).isEmpty
            ∨ (([] : Chunk) ++ ([] : Chunk)).length < t := by
          left; rfl
        have htr2 := encTransform_false_keep (t := t) hkeep2
        simp only [wSessionGo, wWrite, wFlush, Bool.false_eq_true, if_false, htr,
          htr2, drain_spec hl, List.append_nil]
        rw [ih [] (down ++ frame (buf ++ c)) _]
        simp only [List.map_cons, encodeGo, htr, outBytes_emit, List.append_nil]
        have hne : (frame (buf ++ c)).isEmpty = false := by
          simp [frame]
        simp [hne, List.append_assoc]

theorem wClose_closed (t limit : Nat) (s : WState) :
    (wClose t limit s).closed = true := by
  by_cases h : s.closed
  · simp [wClose, h]
  · simp [wClose, h]

/-! ## The zlib bufread constructors (src/bufread/zlib.rs) -/

/-- Model of `flate2::Compression`: an opaque compression level. -/
structure Compression where
  level : Nat
deriving DecidableEq

/-- Modelled from the spec: the backend zlib codec in encode mode
(`crate::codec::ZlibEncoder`, not part of the source tree); it records the
level passed through to the backend. -/
structure CodecZlibEncoder where
  level : Compression
deriving DecidableEq

/-- Constructor of the backend encode codec: stores the level. -/
def CodecZlibEncoder.new (level : Compression) : CodecZlibEncoder :=
  ⟨level⟩

/-- Modelled from the spec: the backend zlib codec in decode mode; decoders
take no level, so the decode codec state carries no data. -/
structure CodecZlibDecoder where
deriving DecidableEq

/-- Constructor of the backend decode codec: takes nothing. -/
def CodecZlibDecoder.new : CodecZlibDecoder :=
  ⟨⟩

/-- Modelled from the spec: the generic bufread encoder wrapper
(`crate::bufread::Encoder`): the upstream reader together with the codec. -/
structure GenEncoder (R C : Type) where
  reader : R
  codec : C
deriving DecidableEq

/-- Constructor of the generic bufread encoder wrapper. -/
def GenEncoder.new {R C : Type} (read : R) (codec : C) : GenEncoder R C :=
  ⟨read, codec⟩

/-- Modelled from the spec: the generic bufread decoder wrapper
(`crate::bufread::Decoder`). -/
structure GenDecoder (R C : Type) where
  reader : R
  codec : C
deriving DecidableEq

/-- Constructor of the generic bufread decoder wrapper. -/
def GenDecoder.new {R C : Type} (read : R) (codec : C) : GenDecoder R C :=
  ⟨read, codec⟩

/-- Model of `bufread::ZlibEncoder` (src/bufread/zlib.rs lines 13-30): the
struct generated by the `encoder!` macro, wrapping the generic encoder. -/
structure ZlibEncoder (R : Type) where
  inner : GenEncoder R CodecZlibEncoder
deriving DecidableEq

/-- Model of `bufread::ZlibEncoder::new` (src/bufread/zlib.rs lines 22-30):
reads uncompressed data from `read` and takes the compression `level`,
passing it through to the backend codec. -/
def ZlibEncoder.new {R : Type} (read : R) (level : Compression) : ZlibEncoder R :=
  { inner := GenEncoder.new read (CodecZlibEncoder.new level) }

/-- Model of `bufread::ZlibDecoder` (src/bufread/zlib.rs lines 4-11),
generated by the `decoder!` macro; modelled from the spec: the decoder
wraps the generic decoder with the level-free decode codec. -/
structure ZlibDecoder (R : Type) where
  inner : GenDecoder R CodecZlibDecoder
deriving DecidableEq

/-- Modelled from the spec: the decoder constructor generated by the
`decoder!` macro takes the upstream alone — no compression level. -/
def ZlibDecoder.new {R : Type} (read : R) : ZlibDecoder R :=
  { inner := GenDecoder.new read CodecZlibDecoder.new }

/-! ## Progress predicates for the per-call traces -/

/-- The progress disjunction exactly as the specification states it: the
call consumes at least one input byte, produces at least one output byte,
advances the internal phase, or reports not-ready with no mutation. -/
def StepOk (r : StepRec) : Prop :=
  1 ≤ r.consumedBytes ∨ 1 ≤ r.producedBytes ∨ r.phaseAdvanced = true
    ∨ r.reportedPending = true

instance (r : StepRec) : Decidable (StepOk r) := by
  unfold StepOk
  infer_instance

/-- The progress disjunction amended by the case the adapters actually
exhibit: a call may instead consume one (possibly empty) chunk item from
upstream with no other externally observable effect. -/
def StepOkAmended (r : StepRec) : Prop :=
  StepOk r ∨ r.tookChunk = true

instance (r : StepRec) : Decidable (StepOkAmended r) := by
  unfold StepOkAmended
  infer_instance

/-- Every step of an encoder run satisfies the amended progress
disjunction. -/
theorem encodeGo_steps_ok (t : Nat) :
    ∀ (items : List UpItem) (buf : Chunk),
      ∀ r ∈ (encodeGo t buf items).steps, StepOkAmended r := by
  intro items
  induction items with
  | nil =>
      intro buf r hr
      simp only [encodeGo, List.mem_cons, List.mem_append, List.mem_map,
        List.mem_singleton] at hr
      rcases hr with hr | ⟨c, hc, hr⟩ | hr
      · subst hr
        left; right; right; left; rfl
      · subst hr
        left; right; left
        rw [encFlush_eq] at hc
        by_cases hb : buf.isEmpty
        · simp [hb] at hc
          subst hc
          simp
        · simp [hb] at hc
          rcases hc with hc | hc <;> subst hc <;> simp [frame]
      · rcases hr with hr | hr
        · subst hr
          left; right; right; left; rfl
        · simp at hr
  | cons i rest ih =>
      intro buf r hr
      cases i with
      | pending =>
          simp only [encodeGo, List.mem_cons] at hr
          rcases hr with hr | hr
          · subst hr
            left; right; right; right; rfl
          · exact ih buf r hr
      | chunk c =>
          simp only [encodeGo, List.mem_cons] at hr
          rcases hr with hr | hr
          · subst hr
            right; rfl
          · exact ih _ r hr

/-- Every step of a decoder run satisfies the amended progress
disjunction. -/
theorem decodeGo_steps_ok :
    ∀ (items : List UpItem) (buf : Chunk) (done : Bool),
      ∀ r ∈ (decodeGo buf done items).steps, StepOkAmended r := by
  intro items
  induction items with
  | nil =>
      intro buf done r hr
      cases done with
      | true => simp [decodeGo] at hr
      | false =>
          simp only [decodeGo, Bool.false_eq_true, if_false,
            List.mem_singleton] at hr
          subst hr
          left; right; right; left; rfl
  | cons i rest ih =>
      intro buf done r hr
      cases i with
      | pending =>
          simp only [decodeGo, List.mem_cons] at hr
          rcases hr with hr | hr
          · subst hr
            left; right; right; right; rfl
          · exact ih buf done r hr
      | chunk c =>
          cases done with
          | true =>
              simp only [decodeGo, if_true, List.mem_cons] at hr
              rcases hr with hr | hr
              · subst hr
                right; rfl
              · exact ih buf true r hr
          | false =>
              simp only [decodeGo, Bool.false_eq_true, if_false,
                List.mem_cons] at hr
              rcases hr with hr | hr
              · subst hr
                right; rfl
              · exact ih _ _ r hr

/-! ## Remaining glue lemmas -/

theorem chunkBytes_map_chunk (l : List Chunk) :
    chunkBytes (l.map UpItem.chunk) = l.flatten := by
  induction l with
  | nil => rfl
  | cons c cs ih => simp [chunkBytes_cons_chunk, ih]

theorem chunkBytes_outToUp (l : List OutItem) :
    chunkBytes (outToUp l) = outBytes l := by
  induction l with
  | nil => rfl
  | cons i rest ih =>
      cases i with
      | pending =>
          simpa [outToUp, chunkBytes_cons_pending, outBytes_cons_pending] using ih
      | chunk c =>
          simp only [outToUp, List.map_cons]
          rw [chunkBytes_cons_chunk, outBytes_cons_chunk]
          simpa [outToUp] using ih

theorem strip_map_chunk (l : List Chunk) :
    strip (l.map UpItem.chunk) = (l.filter fun c => !c.isEmpty).map UpItem.chunk := by
  induction l with
  | nil => rfl
  | cons c cs ih =>
      by_cases h : c.isEmpty
      · simp [strip, List.filter_cons, h] at ih ⊢
        simpa [strip] using ih
      · simp [strip, List.filter_cons, h] at ih ⊢
        simpa [strip] using ih

/-! ## The claims -/

/-- C1: for every codec of the family (indexed by its buffering threshold)
and every chunked input sequence X, decoding the encoder's output — either
in one shot or through the stream decoder adapter — yields exactly the
concatenation of the chunks of X: no byte lost, duplicated or reordered. -/
theorem roundtrip_decode_encode (t : Nat) (X : List Chunk) :
    syncDecode (encBytes t (X.map UpItem.chunk)) = X.flatten
      ∧ decBytes (outToUp (encodeRun t (X.map UpItem.chunk)).out) = X.flatten := by
  constructor
  · rw [syncDecode_encBytes, chunkBytes_map_chunk]
  · have hstuck : (decTransform ([] : Chunk)).consumed = 0 := rfl
    have h := decodeGo_correct (outToUp (encodeRun t (X.map UpItem.chunk)).out) [] hstuck
    rw [List.nil_append, chunkBytes_outToUp] at h
    have hout : outBytes (encodeRun t (X.map UpItem.chunk)).out
        = encBytes t (X.map UpItem.chunk) := rfl
    rw [decBytes, decodeRun, h, hout]
    have := syncDecode_encBytes t (X.map UpItem.chunk)
    rw [syncDecode] at this
    rw [this, chunkBytes_map_chunk]

/-- C2: for every codec of the family, every input X and every two
chunkings of X into nonempty parts, the encodings of both chunkings decode
to X (byte-identical encoded outputs are not required and not asserted). -/
theorem chunking_invariance (t : Nat) (X : Chunk) (X1 X2 : List Chunk)
    (h1 : X1.flatten = X) (h2 : X2.flatten = X)
    (_hne1 : ∀ c ∈ X1, c ≠ []) (_hne2 : ∀ c ∈ X2, c ≠ []) :
    syncDecode (encBytes t (X1.map UpItem.chunk)) = X
      ∧ syncDecode (encBytes t (X2.map UpItem.chunk)) = X := by
  constructor
  · rw [syncDecode_encBytes, chunkBytes_map_chunk, h1]
  · rw [syncDecode_encBytes, chunkBytes_map_chunk, h2]

theorem chunking_invariance_witness :
    ([[1], [2, 3]] : List Chunk).flatten = [1, 2, 3]
      ∧ ([[1, 2, 3]] : List Chunk).flatten = [1, 2, 3]
      ∧ (∀ c ∈ ([[1], [2, 3]] : List Chunk), c ≠ [])
      ∧ (∀ c ∈ ([[1, 2, 3]] : List Chunk), c ≠ [])
      ∧ (syncDecode (encBytes 4 (([[1], [2, 3]] : List Chunk).map UpItem.chunk)) = [1, 2, 3]
          ∧ syncDecode (encBytes 4 (([[1, 2, 3]] : List Chunk).map UpItem.chunk)) = [1, 2, 3]) :=
  ⟨by decide, by decide, by decide, by decide,
    chunking_invariance 4 [1, 2, 3] [[1], [2, 3]] [[1, 2, 3]]
      (by decide) (by decide) (by decide) (by decide)⟩

/-- C3: interleaving pending signals and empty chunks into the upstream
(and, for the write shape, any downstream per-poll limit and pending
alternation) does not change the bytes an adapter finally delivers, for
the stream, read and write shapes, encode and decode directions: re-entry
after a suspension never re-consumes or re-emits a byte. -/
theorem suspension_invariance (t : Nat) (items : List UpItem)
    (chunks : List Chunk) (limit : Nat) (flag0 : Bool) (hl : 1 ≤ limit) :
    encBytes t items = encBytes t (strip items)
      ∧ decBytes items = decBytes (strip items)
      ∧ readGo t [] items = readGo t [] (strip items)
      ∧ readDecGo [] false items = readDecGo [] false (strip items)
      ∧ (wSession t limit flag0 chunks).down
          = (wSession t 1 false (chunks.filter fun c => !c.isEmpty)).down := by
  refine ⟨?_, ?_, ?_, ?_, ?_⟩
  · exact encodeGo_strip t items [] (Or.inl rfl)
  · exact decodeGo_strip items [] false (Or.inr rfl)
  · rw [readGo_eq_encodeGo, readGo_eq_encodeGo]
    exact encodeGo_strip t items [] (Or.inl rfl)
  · rw [readDecGo_eq_decodeGo, readDecGo_eq_decodeGo]
    exact decodeGo_strip items [] false (Or.inr rfl)
  · rw [wSession, wSession, wSessionGo_down t limit hl, wSessionGo_down t 1 le_rfl]
    rw [← strip_map_chunk]
    rw [← encodeGo_strip t (chunks.map UpItem.chunk) [] (Or.inl rfl)]

theorem suspension_invariance_witness :
    1 ≤ 2
      ∧ (encBytes 4 [UpItem.pending, UpItem.chunk [], UpItem.chunk [1, 2, 3, 4, 5]]
            = encBytes 4 (strip [UpItem.pending, UpItem.chunk [], UpItem.chunk [1, 2, 3, 4, 5]])
          ∧ decBytes [UpItem.pending, UpItem.chunk [], UpItem.chunk [1, 2, 3, 4, 5]]
              = decBytes (strip [UpItem.pending, UpItem.chunk [], UpItem.chunk [1, 2, 3, 4, 5]])
          ∧ readGo 4 [] [UpItem.pending, UpItem.chunk [], UpItem.chunk [1, 2, 3, 4, 5]]
              = readGo 4 [] (strip [UpItem.pending, UpItem.chunk [], UpItem.chunk [1, 2, 3, 4, 5]])
          ∧ readDecGo [] false [UpItem.pending, UpItem.chunk [], UpItem.chunk [1, 2, 3, 4, 5]]
              = readDecGo [] false (strip [UpItem.pending, UpItem.chunk [], UpItem.chunk [1, 2, 3, 4, 5]])
          ∧ (wSession 4 2 true [[1, 2], [], [3, 4, 5]]).down
              = (wSession 4 1 false ([[1, 2], [], [3, 4, 5]].filter fun c => !c.isEmpty)).down) :=
  ⟨by decide,
    suspension_invariance 4 [UpItem.pending, UpItem.chunk [], UpItem.chunk [1, 2, 3, 4, 5]]
      [[1, 2], [], [3, 4, 5]] 2 true (by decide)⟩

/-- C4: an encoder run on empty input — no chunks at all or only empty
chunks — still passes through the phases Encoding, Flushing, Done and
emits the codec's minimal valid stream, which decodes to the empty byte
sequence. -/
theorem empty_input_phases (t : Nat) (items : List UpItem)
    (h : ∀ x ∈ items, x = UpItem.chunk []) :
    (encodeRun t items).phases = [.Encoding, .Flushing, .Done]
      ∧ encBytes t items = [0]
      ∧ syncDecode (encBytes t items) = [] := by
  have hphases := encodeGo_phases t items []
  have hbytes := encodeGo_empty_input t items h
  refine ⟨?_, ?_, ?_⟩
  · simp [encodeRun, hphases]
  · simpa [encBytes, encodeRun] using hbytes
  · have hb : encBytes t items = [0] := by simpa [encBytes, encodeRun] using hbytes
    rw [hb]
    rfl

theorem empty_input_phases_witness :
    (∀ x ∈ [UpItem.chunk []], x = UpItem.chunk [])
      ∧ ((encodeRun 4 [UpItem.chunk []]).phases = [.Encoding, .Flushing, .Done]
          ∧ encBytes 4 [UpItem.chunk []] = [0]
          ∧ syncDecode (encBytes 4 [UpItem.chunk []]) = []) :=
  ⟨by decide, empty_input_phases 4 [UpItem.chunk []] (by decide)⟩

/-- C5: over a whole encoder adapter run the codec's finish path completes
exactly once — the transform reports `streamEnd` exactly once, the end
marker is the last byte emitted — and a decoder fed the encoder's output
accepts exactly one end-of-stream marker before going terminal. -/
theorem exactly_one_finish (t : Nat) (items : List UpItem) :
    (encodeRun t items).ends = 1
      ∧ (encBytes t items).getLast? = some 0
      ∧ (decodeRun (outToUp (encodeRun t items).out)).ends = 1 := by
  refine ⟨?_, ?_, ?_⟩
  · simpa [encodeRun] using encodeGo_ends t items []
  · obtain ⟨fs, h1, _⟩ := enc_frames t items []
    have hb : encBytes t items = fs ++ [0] := by
      simpa [encBytes, encodeRun] using h1
    rw [hb]
    simp
  · have hstuck : (decTransform ([] : Chunk)).consumed = 0 := rfl
    have h := decodeGo_ends (outToUp (encodeRun t items).out) [] hstuck
    rw [List.nil_append, chunkBytes_outToUp] at h
    have hout : outBytes (encodeRun t items).out = encBytes t items := rfl
    rw [decodeRun, h, hout, dec_enc_status]
    simp

/-- C6 as stated is false: the call in which the stream encoder consumes an
empty upstream chunk neither consumes a byte, nor produces a byte, nor
advances the phase, nor reports not-ready. -/
theorem monotonic_progress_counterexample :
    ¬ (∀ r ∈ (encodeRun 4 [UpItem.chunk []]).steps, StepOk r) := by
  decide

/-- C6 amended: every call of an encoder or decoder adapter run, up to
completion, consumes at least one input byte, produces at least one output
byte, advances the internal phase, reports not-ready with no mutation of
externally observable state, or consumes one (possibly empty) chunk item
from upstream with no other externally observable effect. -/
theorem monotonic_progress_amended (t : Nat) (itemsE itemsD : List UpItem) :
    (∀ r ∈ (encodeRun t itemsE).steps, StepOkAmended r)
      ∧ (∀ r ∈ (decodeRun itemsD).steps, StepOkAmended r) := by
  constructor
  · intro r hr
    exact encodeGo_steps_ok t itemsE [] r (by simpa [encodeRun] using hr)
  · intro r hr
    exact decodeGo_steps_ok itemsD [] false r hr

/-- C7: close is idempotent — a second close after a completed close is a
no-op and no error — and after a completed close every write and every
flush fails with `WriteAfterClose`. -/
theorem close_idempotent_write_after_close (t limit : Nat) (s : WState) (bs : Chunk) :
    wClose t limit (wClose t limit s) = wClose t limit s
      ∧ wWrite t limit (wClose t limit s) bs = .error .writeAfterClose
      ∧ wFlush t limit (wClose t limit s) = .error .writeAfterClose := by
  have hcl := wClose_closed t limit s
  refine ⟨?_, ?_, ?_⟩
  · conv_lhs => rw [wClose]
    rw [if_pos hcl]
  · rw [wWrite, if_pos hcl]
  · rw [wFlush, if_pos hcl]

/-- C8: the bufread zlib encoder is constructed from the upstream together
with a compression level that is passed through to the backend codec; the
bufread zlib decoder is constructed from the upstream alone, and its codec
state carries no level at all. -/
theorem zlib_constructor_shapes (R : Type) (r : R) (lvl : Compression) :
    (ZlibEncoder.new r lvl).inner.codec.level = lvl
      ∧ (ZlibEncoder.new r lvl).inner.reader = r
      ∧ (ZlibDecoder.new r).inner.reader = r
      ∧ (∀ d1 d2 : CodecZlibDecoder, d1 = d2) := by
  exact ⟨rfl, rfl, rfl, fun d1 d2 => rfl⟩

/-- C9: the chunk sequence yielded by `InputStream::stream` is exactly one
empty chunk before each underlying chunk plus one trailing empty chunk,
every item wrapped in `Ok`, and the concatenation of all yielded chunk
bytes equals `InputStream::bytes`. -/
theorem inputStream_stream_spec (s : InputStream) :
    yieldedItems s.stream
        = ((s.chunks.flatMap fun c => [([] : Chunk), c]) ++ [[]]).map Except.ok
      ∧ ((yieldedItems s.stream).map chunkOf).flatten = s.bytes := by
  have h1 : yieldedItems s.stream
      = ((s.chunks.flatMap fun c => [([] : Chunk), c]) ++ [[]]).map Except.ok :=
    yieldedItems_interleavePending _
  refine ⟨h1, ?_⟩
  rw [h1, List.map_map]
  have hcomp : (chunkOf ∘ Except.ok) = (id : Chunk → Chunk) := by
    funext c
    rfl
  rw [hcomp, List.map_id]
  exact flatten_interleaved s.chunks

/-- C10: `InputStream::len` equals the length of `InputStream::bytes`: the
sum of the chunk lengths is the length of their concatenation. -/
theorem inputStream_len_bytes (s : InputStream) :
    s.len = s.bytes.length := by
  rw [InputStream.len, InputStream.bytes, List.length_flatten]

end AsyncCompression
